import Mathlib

/-!
Verification of the mrjob Spark harness (`mrjob/spark/mrjob_spark_harness.py`).

We shallowly embed the harness: encoded records are byte sequences
(`Line := List Nat`), an RDD is a list of partitions, and the job
definition (an external collaborator) is a structure of abstract
decode/encode/mapper/combiner/reducer functions.  The grouping and
fold-by-key primitives of the dataflow engine are modelled
deterministically: groups are formed per key, keys listed in order of
first occurrence in the (flattened) input, and per-key folds process the
key's values in input order.
-/

namespace SparkHarness

/-- An encoded record: a sequence of bytes (each byte a `Nat`). -/
abbrev Line := List Nat

/-- The TAB byte, which separates the encoded key from the encoded value. -/
def TAB : Nat := 9

/-- Python's `line.split(b'\t')`: split a byte sequence on TAB bytes.
The result is always nonempty (splitting the empty sequence gives `[[]]`). -/
def splitTab : Line → List Line
  | [] => [[]]
  | b :: rest =>
    if b = TAB then [] :: splitTab rest
    else
      match splitTab rest with
      | [] => [[b]]
      | s :: ss => (b :: s) :: ss

/-- `line.split(b'\t')[0]`: the encoded key of a record — all bytes before
the first TAB (the whole line when it contains no TAB). -/
def rawKey (l : Line) : Line := (splitTab l).headD []

/-- Lexicographic byte-order on lines, as Python compares `bytes`. -/
def lineLE : Line → Line → Bool
  | [], _ => true
  | _ :: _, [] => false
  | a :: xs, b :: ys =>
    if a < b then true
    else if b < a then false
    else lineLE xs ys

/-- Insert a line into a lexicographically sorted list of lines. -/
def insertLine (x : Line) : List Line → List Line
  | [] => [x]
  | y :: ys => if lineLE x y then x :: y :: ys else y :: insertLine x ys

/-- Python's `sorted` on a list of byte strings (lexicographic order;
the order is total and antisymmetric, so the result is the unique sorted
permutation). -/
def sortLines : List Line → List Line
  | [] => []
  | x :: xs => insertLine x (sortLines xs)

/-- Sort when the flag is set, otherwise leave the list alone. -/
def sortOpt (sv : Bool) (ls : List Line) : List Line :=
  if sv then sortLines ls else ls

/-! ## The dataflow-engine (RDD) model -/

/-- A partitioned collection: a list of partitions. -/
abbrev RDD (α : Type _) := List (List α)

/-- `rdd.map(f)`: apply `f` to every element of every partition. -/
def rddMap (f : α → β) (r : RDD α) : RDD β := r.map (List.map f)

/-- `rdd.mapPartitions(f)`: apply `f` to each partition as a whole. -/
def rddMapPartitions (f : List α → List β) (r : RDD α) : RDD β := r.map f

/-- `rdd.flatMap(f)`: apply `f` elementwise, concatenating within a
partition. -/
def rddFlatMap (f : α → List β) (r : RDD α) : RDD β :=
  r.map (fun part => part.flatMap f)

/-- `rdd.mapValues(f)` on an RDD of pairs. -/
def rddMapValues (f : β → γ) (r : RDD (α × β)) : RDD (α × γ) :=
  rddMap (fun kv => (kv.1, f kv.2)) r

/-- Collect an RDD into a single list (concatenation of its partitions). -/
def rddCollect (r : RDD α) : List α := r.flatten

/-- Remove duplicates keeping the first occurrence of each element. -/
def dedupFirst [DecidableEq κ] : List κ → List κ
  | [] => []
  | k :: ks => k :: (dedupFirst ks).filter (fun k2 => ¬ k2 = k)

/-- `rdd.groupBy(f)`: group all elements by `f`.  Each key's group lists
its elements in input order; the groups land in one partition, keyed in
order of first occurrence. -/
def rddGroupBy [DecidableEq κ] (f : α → κ) (r : RDD α) : RDD (κ × List α) :=
  let xs := rddCollect r
  [(dedupFirst (xs.map f)).map
    (fun k => (k, xs.filter (fun x => decide (f x = k))))]

/-- Fold a nonempty list with a `createCombiner`/`mergeValue` pair;
`none` on the empty list. -/
def fold1 (create : α → γ) (merge : γ → α → γ) : List α → Option γ
  | [] => none
  | x :: xs => some (xs.foldl merge (create x))

/-- `rdd.combineByKey(createCombiner, mergeValue, mergeCombiners)`:
for each key (in order of first occurrence) fold that key's values, in
input order, through `createCombiner`/`mergeValue`.  (`mergeCombiners`
is the merge of two partial folds; in this deterministic single-chain
model it is not invoked.) -/
def rddCombineByKey [DecidableEq κ] (create : α → γ) (mergeV : γ → α → γ)
    (mergeC : γ → γ → γ) (r : RDD (κ × α)) : RDD (κ × γ) :=
  let xs := rddCollect r
  [(dedupFirst (xs.map Prod.fst)).filterMap
    (fun k =>
      (fold1 create mergeV
        ((xs.filter (fun p => decide (p.1 = k))).map Prod.snd)).map
          (fun c => (k, c)))]

/-! ## The job definition (external collaborator)

One structure stands for the per-role job instances built by
`make_job('--mapper'/'--combiner'/'--reducer', '--step-num=…')`:
the `pick_protocols` read/write pairs of the three roles, the three
batch entry points, and the `sort_values` flag. -/

structure Job (K V : Type) where
  m_read : Line → K × V
  m_write : K → V → Line
  c_read : Line → K × V
  c_write : K → V → Line
  r_read : Line → K × V
  r_write : K → V → Line
  map_pairs : List (K × V) → List (K × V)
  combine_pairs : List (K × V) → List (K × V)
  reduce_pairs : List (K × V) → List (K × V)
  sort_values : Bool

/-- The decoded key of a line under the job's combiner-role decoder. -/
def jk (job : Job K V) (l : Line) : K := (job.c_read l).1

/-! ## The harness stages -/

/-- `combiner_helper` from `_run_combiner`: merging two accumulator
lists invokes the job's combiner on the two-element batch exactly when
both lists are singletons; otherwise it concatenates. -/
def combiner_helper (combine_pairs : List (K × V) → List (K × V))
    (pairs1 pairs2 : List (K × V)) : List (K × V) :=
  if pairs1.length = 1 ∧ pairs2.length = 1 then
    combine_pairs (pairs1 ++ pairs2)
  else
    pairs1 ++ pairs2

/-- `_discard_key_and_flatten_values`: given an RDD of
`(key, [line1, line2, ...])`, discard the key and flatten the lists,
sorting each list first when `sort_values` is true. -/
def _discard_key_and_flatten_values (r : RDD (κ × List Line))
    (sort_values : Bool) : RDD Line :=
  if sort_values then
    rddFlatMap (fun key_and_lines => sortLines key_and_lines.2) r
  else
    rddFlatMap (fun key_and_lines => key_and_lines.2) r

/-- `_run_mapper`: decode each record, run the job's mapper over each
partition, re-encode. -/
def _run_mapper [DecidableEq K] (mapper_job : Job K V) (rdd : RDD Line) :
    RDD Line :=
  let rdd1 := rddMap mapper_job.m_read rdd
  let rdd2 := rddMapPartitions (fun pairs => mapper_job.map_pairs pairs) rdd1
  rddMap (fun k_v => mapper_job.m_write k_v.1 k_v.2) rdd2

/-- `_run_combiner`: decode, tag each pair with its key, fold by key with
`combiner_helper`, re-encode each key's pair list, then discard keys and
flatten (sorting each key's lines when `sort_values` is true). -/
def _run_combiner [DecidableEq K] (combiner_job : Job K V) (rdd : RDD Line)
    (sort_values : Bool) : RDD Line :=
  let rdd1 := rddMap combiner_job.c_read rdd
  let rdd2 := rddMap (fun k_v => (k_v.1, k_v)) rdd1
  let rdd3 := rddCombineByKey
    (fun k_v => [k_v])
    (fun k_v_list k_v => combiner_helper combiner_job.combine_pairs k_v_list [k_v])
    (combiner_helper combiner_job.combine_pairs)
    rdd2
  let rdd4 := rddMapValues
    (fun pairs => pairs.map (fun pair => combiner_job.c_write pair.1 pair.2))
    rdd3
  _discard_key_and_flatten_values rdd4 sort_values

/-- `_shuffle_and_sort`: group lines by their raw (TAB-delimited) key and
flatten the groups, sorting each group when `sort_values` is true. -/
def _shuffle_and_sort (rdd : RDD Line) (sort_values : Bool) : RDD Line :=
  _discard_key_and_flatten_values (rddGroupBy rawKey rdd) sort_values

/-- `_run_reducer`: decode each record, run the job's reducer over each
partition, re-encode. -/
def _run_reducer [DecidableEq K] (reducer_job : Job K V) (rdd : RDD Line) :
    RDD Line :=
  let rdd1 := rddMap reducer_job.r_read rdd
  let rdd2 := rddMapPartitions (fun pairs => reducer_job.reduce_pairs pairs) rdd1
  rddMap (fun k_v => reducer_job.r_write k_v.1 k_v.2) rdd2

/-! ## Step descriptors and validation -/

/-- A substep descriptor (`step_desc['mapper'/'combiner'/'reducer']`):
its `type` field and whether a `pre_filter` is present. -/
structure SubstepDesc where
  type : Option String
  pre_filter : Bool
deriving DecidableEq

/-- A step descriptor: its `type`, the `input_manifest` flag, and the
optional per-role substep descriptors. -/
structure StepDesc where
  type : Option String
  input_manifest : Bool
  mapper : Option SubstepDesc
  combiner : Option SubstepDesc
  reducer : Option SubstepDesc
deriving DecidableEq, Inhabited

/-- The rejection taxonomy of the step validator: `ValueError` for an
unexpected step type, `NotImplementedError` for unsupported features
(input manifest, pre-filter) and for an unexpected substep type. -/
inductive CheckError where
  | UnsupportedStepType
  | UnsupportedFeature
  | UnsupportedSubstepType
deriving DecidableEq

/-- Validation of one mapper/reducer substep descriptor inside
`_check_step`: its type must be `"script"` and it must carry no
pre-filter. -/
def checkRole (d : SubstepDesc) : Except CheckError Unit :=
  if ¬ d.type = some "script" then
    Except.error CheckError.UnsupportedSubstepType
  else if d.pre_filter then
    Except.error CheckError.UnsupportedFeature
  else Except.ok ()

/-- Validation of an optional substep: an absent substep is skipped. -/
def checkOpt : Option SubstepDesc → Except CheckError Unit
  | none => Except.ok ()
  | some d => checkRole d

/-- `_check_step`: reject a step whose type is not `"streaming"`, that
uses an input manifest, or whose mapper or reducer substep is not a
script or has a pre-filter.  Combiner substeps are never checked. -/
def _check_step (step_desc : StepDesc) (step_num : Nat) :
    Except CheckError Unit :=
  if ¬ step_desc.type = some "streaming" then
    Except.error CheckError.UnsupportedStepType
  else if step_desc.input_manifest then
    Except.error CheckError.UnsupportedFeature
  else do
    checkOpt step_desc.mapper
    checkOpt step_desc.reducer

/-- `_run_step`: validate the step, then compose the stages — mapper if
present, then combiner if present (else shuffle-and-sort if a reducer
is present), then reducer if present.  `sort_values` comes from the
reducer job when there is one. -/
def _run_step [DecidableEq K] (step_desc : StepDesc) (step_num : Nat)
    (rdd : RDD Line) (job : Job K V) : Except CheckError (RDD Line) := do
  _check_step step_desc step_num
  let sort_values := if step_desc.reducer.isSome then job.sort_values else false
  let rdd1 := if step_desc.mapper.isSome then _run_mapper job rdd else rdd
  let rdd2 :=
    if step_desc.combiner.isSome then _run_combiner job rdd1 sort_values
    else if step_desc.reducer.isSome then _shuffle_and_sort rdd1 sort_values
    else rdd1
  let rdd3 := if step_desc.reducer.isSome then _run_reducer job rdd2 else rdd2
  return rdd3

/-- Python's slice `xs[i:j]` for a start index defaulting to `0` and an
optional stop index (claims only concern `0 ≤ i ≤ j ≤ |xs|`). -/
def pySlice (xs : List α) (start stop : Option Nat) : List α :=
  let i := start.getD 0
  match stop with
  | none => xs.drop i
  | some j => (xs.take j).drop i

/-- The step-processing loop of `main`:
`steps_to_run = list(enumerate(steps))[start:end]`, then each selected
step transforms the RDD in order, each step's output feeding the next.
`make_job` builds the job instance used for a given step number. -/
def mainLoop [DecidableEq K] (steps : List StepDesc) (make_job : Nat → Job K V)
    (start_step end_step : Option Nat) (rdd : RDD Line) :
    Except CheckError (RDD Line) :=
  (pySlice steps.enum start_step end_step).foldlM
    (fun r p => _run_step p.2 p.1 r (make_job p.1)) rdd

/-! ## Contiguity of key groups -/

/-- Collapse consecutive equal elements into one (the list of "runs"). -/
def collapseRuns [DecidableEq κ] : List κ → List κ
  | [] => []
  | k :: ks =>
    match collapseRuns ks with
    | [] => [k]
    | k2 :: ks2 => if k = k2 then k2 :: ks2 else k :: k2 :: ks2

/-- All elements sharing an `f`-key appear contiguously in `xs`: each
key forms at most one consecutive run, i.e. the run keys are distinct. -/
def ContiguousBy [DecidableEq κ] (f : α → κ) (xs : List α) : Prop :=
  (collapseRuns (xs.map f)).Nodup

/-- Split a list into its maximal consecutive runs of equal `f`-key,
pairing each run with its key. -/
def groupRuns [DecidableEq κ] (f : α → κ) : List α → List (κ × List α)
  | [] => []
  | x :: xs =>
    match groupRuns f xs with
    | [] => [(f x, [x])]
    | (k, run) :: rest =>
      if f x = k then (k, x :: run) :: rest
      else (f x, [x]) :: (k, run) :: rest

/-- Modelled from the spec: the job definition's reducer entry point
(`reduce_pairs`, part of the MRJob class, which is not in the harness
source) "appl[ies] the reducer's per-group logic" so that "the reducer
logic observes one contiguous run per key per partition in the order the
upstream stage delivered it": each maximal consecutive run of decoded
pairs sharing a key is passed to the per-group reducer logic `red`, and
the outputs are concatenated in run order. -/
def spec_reduce_pairs [DecidableEq K] (red : K → List V → List (K × V))
    (pairs : List (K × V)) : List (K × V) :=
  (groupRuns Prod.fst pairs).flatMap (fun kr => red kr.1 (kr.2.map Prod.snd))

/-! ## Per-key normal forms of the stages -/

/-- The list of decoded pairs the combiner stage accumulates for one
key, given the input lines of that key in order: the
`createCombiner`/`mergeValue` fold of `rddCombineByKey` as invoked by
`_run_combiner`. -/
def combinedPairs [DecidableEq K] (job : Job K V) (ls : List Line) :
    List (K × V) :=
  (fold1 (fun k_v => [k_v])
    (fun k_v_list k_v => combiner_helper job.combine_pairs k_v_list [k_v])
    (ls.map job.c_read)).getD []

/-- The reducer stage's output for one key's block of lines: nothing for
an empty block, otherwise the per-group reducer logic applied to the
decoded values, re-encoded. -/
def redBlock (job : Job K V) (red : K → List V → List (K × V)) (k : K)
    (bl : List Line) : List Line :=
  if bl = [] then []
  else (red k ((bl.map job.r_read).map Prod.snd)).map
    (fun p => job.r_write p.1 p.2)

/-- Final per-key output of combiner stage followed by reducer stage,
for one key whose input lines are `ls`. -/
def keyedRedA [DecidableEq K] (job : Job K V)
    (red : K → List V → List (K × V)) (sv : Bool) (k : K) (ls : List Line) :
    List Line :=
  redBlock job red k
    (sortOpt sv ((combinedPairs job ls).map (fun p => job.c_write p.1 p.2)))

/-- Final per-key output of shuffle-and-sort followed by reducer stage,
for one key whose input lines are `ls`. -/
def keyedRedB (job : Job K V) (red : K → List V → List (K × V)) (sv : Bool)
    (k : K) (ls : List Line) : List Line :=
  redBlock job red k (sortOpt sv ls)

/-! ## Basic lemmas: sorting -/

theorem lineLE_total (x y : Line) : lineLE x y = true ∨ lineLE y x = true := by
  induction x generalizing y with
  | nil => left; rfl
  | cons a xs ih =>
    cases y with
    | nil => right; rfl
    | cons b ys =>
      rcases Nat.lt_trichotomy a b with h | h | h
      · left; simp [lineLE, h]
      · subst h
        rcases ih ys with h2 | h2
        · left; simpa [lineLE] using h2
        · right; simpa [lineLE] using h2
      · right; simp [lineLE, h]

theorem lineLE_cons_iff {a b : Nat} {xs ys : Line} :
    lineLE (a :: xs) (b :: ys) = true ↔
      a < b ∨ (a = b ∧ lineLE xs ys = true) := by
  simp only [lineLE]
  rcases Nat.lt_trichotomy a b with h | h | h
  · simp [h]
  · subst h; simp
  · have h1 : ¬ a < b := Nat.lt_asymm h
    have h2 : ¬ a = b := by omega
    simp [h1, h, h2]

theorem lineLE_trans {x y z : Line} (h1 : lineLE x y = true)
    (h2 : lineLE y z = true) : lineLE x z = true := by
  induction x generalizing y z with
  | nil => rfl
  | cons a xs ih =>
    cases y with
    | nil => simp [lineLE] at h1
    | cons b ys =>
      cases z with
      | nil => simp [lineLE] at h2
      | cons c zs =>
        rcases lineLE_cons_iff.mp h1 with hab | ⟨rfl, h1'⟩
        · rcases lineLE_cons_iff.mp h2 with hbc | ⟨rfl, h2'⟩
          · exact lineLE_cons_iff.mpr (Or.inl (Nat.lt_trans hab hbc))
          · exact lineLE_cons_iff.mpr (Or.inl hab)
        · rcases lineLE_cons_iff.mp h2 with hbc | ⟨rfl, h2'⟩
          · exact lineLE_cons_iff.mpr (Or.inl hbc)
          · exact lineLE_cons_iff.mpr (Or.inr ⟨rfl, ih h1' h2'⟩)

theorem perm_insertLine (x : Line) (ls : List Line) :
    (insertLine x ls).Perm (x :: ls) := by
  induction ls with
  | nil => simp [insertLine]
  | cons y ys ih =>
    by_cases h : lineLE x y = true
    · simp [insertLine, h]
    · simp only [insertLine, h, if_false]
      exact ((ih.cons y).trans (List.Perm.swap x y ys))

theorem perm_sortLines (ls : List Line) : (sortLines ls).Perm ls := by
  induction ls with
  | nil => simp [sortLines]
  | cons x xs ih =>
    exact (perm_insertLine x (sortLines xs)).trans (ih.cons x)

theorem mem_sortLines {x : Line} {ls : List Line} :
    x ∈ sortLines ls ↔ x ∈ ls := (perm_sortLines ls).mem_iff

theorem sorted_insertLine (x : Line) (ls : List Line)
    (h : ls.Pairwise (fun a b => lineLE a b = true)) :
    (insertLine x ls).Pairwise (fun a b => lineLE a b = true) := by
  induction ls with
  | nil => simp [insertLine]
  | cons y ys ih =>
    rcases List.pairwise_cons.mp h with ⟨hy, hys⟩
    by_cases hxy : lineLE x y = true
    · simp only [insertLine, hxy, if_true]
      refine List.pairwise_cons.mpr ⟨?_, h⟩
      intro z hz
      rcases List.mem_cons.mp hz with rfl | hz
      · exact hxy
      · exact lineLE_trans hxy (hy z hz)
    · simp only [insertLine, hxy, if_false]
      refine List.pairwise_cons.mpr ⟨?_, ih hys⟩
      intro z hz
      have hz' := (perm_insertLine x ys).mem_iff.mp hz
      rcases List.mem_cons.mp hz' with rfl | hz2
      · rcases lineLE_total z y with h2 | h2
        · exact absurd h2 hxy
        · exact h2
      · exact hy z hz2

theorem sorted_sortLines (ls : List Line) :
    (sortLines ls).Pairwise (fun a b => lineLE a b = true) := by
  induction ls with
  | nil => simp [sortLines]
  | cons x xs ih => exact sorted_insertLine x (sortLines xs) ih

theorem perm_sortOpt (sv : Bool) (ls : List Line) :
    (sortOpt sv ls).Perm ls := by
  cases sv <;> simp [sortOpt, perm_sortLines]

theorem mem_sortOpt {sv : Bool} {x : Line} {ls : List Line} :
    x ∈ sortOpt sv ls ↔ x ∈ ls := (perm_sortOpt sv ls).mem_iff

/-! ## Basic lemmas: key extraction -/

theorem splitTab_ne_nil (l : Line) : splitTab l ≠ [] := by
  induction l with
  | nil => simp [splitTab]
  | cons b rest ih =>
    by_cases h : b = TAB
    · simp [splitTab, h]
    · simp only [splitTab, h, if_false]
      cases hs : splitTab rest with
      | nil => simp
      | cons s ss => simp

theorem rawKey_eq_takeWhile (l : Line) :
    rawKey l = l.takeWhile (fun b => decide (¬ b = TAB)) := by
  induction l with
  | nil => rfl
  | cons b rest ih =>
    by_cases h : b = TAB
    · simp [rawKey, splitTab, h, List.takeWhile_cons]
    · have hsplit : splitTab (b :: rest) =
        match splitTab rest with
        | [] => [[b]]
        | s :: ss => (b :: s) :: ss := by
        simp [splitTab, h]
      cases hs : splitTab rest with
      | nil => exact absurd hs (splitTab_ne_nil rest)
      | cons s ss =>
        rw [rawKey] at ih ⊢
        rw [hsplit, hs]
        rw [hs] at ih
        simp only [List.headD_cons] at ih ⊢
        rw [List.takeWhile_cons]
        simp [h, ih]

/-! ## C2: the combiner merge function -/

/-- C2: `combiner_helper` invokes the job's combiner logic on the
concatenated two-element batch exactly when both accumulator lists are
singletons, and otherwise returns the plain concatenation without
invoking the combiner logic. -/
theorem combiner_helper_cases {K V : Type}
    (combine_pairs : List (K × V) → List (K × V))
    (pairs1 pairs2 : List (K × V)) :
    (pairs1.length = 1 → pairs2.length = 1 →
      combiner_helper combine_pairs pairs1 pairs2 =
        combine_pairs (pairs1 ++ pairs2)) ∧
    (¬ (pairs1.length = 1 ∧ pairs2.length = 1) →
      combiner_helper combine_pairs pairs1 pairs2 = pairs1 ++ pairs2) := by
  constructor
  · intro h1 h2
    simp [combiner_helper, h1, h2]
  · intro h
    simp [combiner_helper, h]

/-- Witness for C2 at concrete inputs: two singletons trigger the
combiner, a 2-element list with a singleton only concatenates. -/
theorem combiner_helper_cases_witness :
    combiner_helper (fun ps => ps.take 1) [((1 : Nat), (2 : Nat))] [(3, 4)] =
      [(1, 2)] ∧
    combiner_helper (fun ps => ps.take 1) [((1 : Nat), (2 : Nat)), (5, 6)]
      [(3, 4)] = [(1, 2), (5, 6), (3, 4)] := by
  constructor
  · have h := (combiner_helper_cases (fun ps : List (Nat × Nat) => ps.take 1)
      [(1, 2)] [(3, 4)]).1 (by decide) (by decide)
    simpa using h
  · have h := (combiner_helper_cases (fun ps : List (Nat × Nat) => ps.take 1)
      [(1, 2), (5, 6)] [(3, 4)]).2 (by decide)
    simpa using h

/-! ## C9: key extraction is total -/

/-- C9: extracting the key from a line always succeeds: the split on TAB
is never empty (so taking its first element is well defined), a line
with no TAB gets the whole line as its key, and two lines with the same
bytes get the same key. -/
theorem rawKey_total (l : Line) :
    splitTab l ≠ [] ∧
    (TAB ∉ l → rawKey l = l) ∧
    (∀ l2 : Line, l = l2 → rawKey l = rawKey l2) := by
  refine ⟨splitTab_ne_nil l, ?_, ?_⟩
  · intro hno
    rw [rawKey_eq_takeWhile]
    apply List.takeWhile_eq_self_iff.mpr
    intro b hb
    simp only [decide_eq_true_eq]
    intro hbt
    exact hno (hbt ▸ hb)
  · intro l2 h
    rw [h]

/-- Witness for C9 at a concrete line with no TAB byte. -/
theorem rawKey_total_witness :
    splitTab [104, 105] ≠ [] ∧ rawKey [104, 105] = [104, 105] := by
  refine ⟨(rawKey_total [104, 105]).1, ?_⟩
  exact (rawKey_total [104, 105]).2.1 (by decide)

/-! ## C4: the sort-values option -/

/-- C4: `_discard_key_and_flatten_values` flattens the grouped
collection; with `sort_values` enabled each key's lines are emitted in
lexicographically non-decreasing byte order (a permutation of the
group), with it disabled each key's lines are emitted exactly as
grouped (so the multiset is unchanged and no ordering is asserted). -/
theorem discard_key_flatten_spec :
    ∀ (r : RDD (Line × List Line)) (k : Line) (ls : List Line),
      (_discard_key_and_flatten_values r true =
        rddFlatMap (fun kl => sortLines kl.2) r) ∧
      (_discard_key_and_flatten_values r false =
        rddFlatMap (fun kl => kl.2) r) ∧
      (_discard_key_and_flatten_values [[(k, ls)]] true = [sortLines ls]) ∧
      (sortLines ls).Pairwise (fun a b => lineLE a b = true) ∧
      (sortLines ls).Perm ls ∧
      (_discard_key_and_flatten_values [[(k, ls)]] false = [ls]) := by
  intro r k ls
  refine ⟨rfl, rfl, ?_, sorted_sortLines ls, perm_sortLines ls, ?_⟩
  · simp [_discard_key_and_flatten_values, rddFlatMap]
  · simp [_discard_key_and_flatten_values, rddFlatMap]

/-! ## C5: the step validator -/

/-- A present mapper/reducer substep passes validation (an absent one
passes trivially). -/
def roleOK : Option SubstepDesc → Prop
  | none => True
  | some d => d.type = some "script" ∧ d.pre_filter = false

/-- A present mapper/reducer substep whose type is not `"script"`. -/
def roleBadType : Option SubstepDesc → Prop
  | none => False
  | some d => ¬ d.type = some "script"

/-- A present mapper/reducer substep of script type carrying a
pre-filter. -/
def roleFeat : Option SubstepDesc → Prop
  | none => False
  | some d => d.type = some "script" ∧ d.pre_filter = true

instance (s : Option SubstepDesc) : Decidable (roleOK s) :=
  match s with
  | none => isTrue trivial
  | some d =>
    inferInstanceAs (Decidable (d.type = some "script" ∧ d.pre_filter = false))

instance (s : Option SubstepDesc) : Decidable (roleBadType s) :=
  match s with
  | none => isFalse (fun h => h)
  | some d => inferInstanceAs (Decidable (¬ d.type = some "script"))

instance (s : Option SubstepDesc) : Decidable (roleFeat s) :=
  match s with
  | none => isFalse (fun h => h)
  | some d =>
    inferInstanceAs (Decidable (d.type = some "script" ∧ d.pre_filter = true))

theorem role_cases (s : Option SubstepDesc) :
    roleOK s ↔ ¬ roleBadType s ∧ ¬ roleFeat s := by
  cases s with
  | none => simp [roleOK, roleBadType, roleFeat]
  | some d =>
    cases hp : d.pre_filter <;>
      by_cases ht : d.type = some "script" <;>
        simp [roleOK, roleBadType, roleFeat, hp, ht]

/-- `_check_step` as one decision chain, in the order the source checks
its conditions. -/
theorem check_step_eq (sd : StepDesc) (n : Nat) :
    _check_step sd n =
      if ¬ sd.type = some "streaming" then
        Except.error CheckError.UnsupportedStepType
      else if sd.input_manifest then
        Except.error CheckError.UnsupportedFeature
      else if roleBadType sd.mapper then
        Except.error CheckError.UnsupportedSubstepType
      else if roleFeat sd.mapper then
        Except.error CheckError.UnsupportedFeature
      else if roleBadType sd.reducer then
        Except.error CheckError.UnsupportedSubstepType
      else if roleFeat sd.reducer then
        Except.error CheckError.UnsupportedFeature
      else Except.ok () := by
  obtain ⟨t, man, mo, co, ro⟩ := sd
  by_cases ht : t = some "streaming"
  · cases man with
    | true => simp [_check_step, ht]
    | false =>
      simp only [_check_step, ht, not_true, if_false, Bool.false_eq_true,
        if_neg, not_false_iff]
      cases mo with
      | none =>
        simp only [checkOpt, roleBadType, roleFeat]
        cases ro with
        | none => rfl
        | some d =>
          cases hp : d.pre_filter <;>
            by_cases hd : d.type = some "script" <;>
              simp [checkOpt, checkRole, roleBadType, roleFeat, hp, hd,
                Except.ok, Except.bind, bind]
      | some dm =>
        cases hpm : dm.pre_filter <;>
          by_cases hdm : dm.type = some "script" <;>
            cases ro with
            | none =>
              simp [checkOpt, checkRole, roleBadType, roleFeat, hpm, hdm,
                Except.bind, bind]
            | some d =>
              cases hp : d.pre_filter <;>
                by_cases hd : d.type = some "script" <;>
                  simp [checkOpt, checkRole, roleBadType, roleFeat, hp, hd,
                    hpm, hdm, Except.bind, bind]
  · simp [_check_step, ht]

/-- C5: the validator fails with `UnsupportedStepType` exactly when the
step type is not `"streaming"`; otherwise with `UnsupportedFeature` when
the input-manifest flag is set; otherwise, checking the mapper then the
reducer, with `UnsupportedSubstepType` for a present substep whose type
is not `"script"` and with `UnsupportedFeature` for a present script
substep carrying a pre-filter; and it succeeds exactly in every other
case. -/
theorem check_step_characterization (sd : StepDesc) (n : Nat) :
    (_check_step sd n = Except.error CheckError.UnsupportedStepType ↔
      ¬ sd.type = some "streaming") ∧
    (sd.type = some "streaming" → sd.input_manifest = true →
      _check_step sd n = Except.error CheckError.UnsupportedFeature) ∧
    (sd.type = some "streaming" → sd.input_manifest = false →
      roleBadType sd.mapper →
      _check_step sd n = Except.error CheckError.UnsupportedSubstepType) ∧
    (sd.type = some "streaming" → sd.input_manifest = false →
      roleFeat sd.mapper →
      _check_step sd n = Except.error CheckError.UnsupportedFeature) ∧
    (sd.type = some "streaming" → sd.input_manifest = false →
      roleOK sd.mapper → roleBadType sd.reducer →
      _check_step sd n = Except.error CheckError.UnsupportedSubstepType) ∧
    (sd.type = some "streaming" → sd.input_manifest = false →
      roleOK sd.mapper → roleFeat sd.reducer →
      _check_step sd n = Except.error CheckError.UnsupportedFeature) ∧
    (_check_step sd n = Except.ok () ↔
      sd.type = some "streaming" ∧ sd.input_manifest = false ∧
        roleOK sd.mapper ∧ roleOK sd.reducer) := by
  have hm := role_cases sd.mapper
  have hr := role_cases sd.reducer
  rw [check_step_eq] at *
  constructor
  · split_ifs <;> simp_all
  constructor
  · intro h1 h2; split_ifs <;> simp_all
  constructor
  · intro h1 h2 h3; split_ifs <;> simp_all
  constructor
  · intro h1 h2 h3
    have : ¬ roleBadType sd.mapper := by
      cases hs : sd.mapper with
      | none => simp [roleBadType]
      | some d =>
        rw [hs] at h3
        simp only [roleFeat] at h3
        simp [roleBadType, h3.1]
    split_ifs <;> simp_all
  constructor
  · intro h1 h2 h3 h4; split_ifs <;> simp_all
  constructor
  · intro h1 h2 h3 h4
    have : ¬ roleBadType sd.reducer := by
      cases hs : sd.reducer with
      | none => simp [roleBadType]
      | some d =>
        rw [hs] at h4
        simp only [roleFeat] at h4
        simp [roleBadType, h4.1]
    split_ifs <;> simp_all
  · split_ifs <;> simp_all

/-- Witness for C5 at a concrete step descriptor: a streaming step with
a script mapper, a malformed combiner, and a script reducer passes; its
type, manifest, and substep failure modes are as characterized. -/
theorem check_step_characterization_witness :
    _check_step
      { type := some "streaming", input_manifest := false,
        mapper := some { type := some "script", pre_filter := false },
        combiner := some { type := some "command", pre_filter := true },
        reducer := some { type := some "script", pre_filter := false } }
      0 = Except.ok () := by
  exact (check_step_characterization
    { type := some "streaming", input_manifest := false,
      mapper := some { type := some "script", pre_filter := false },
      combiner := some { type := some "command", pre_filter := true },
      reducer := some { type := some "script", pre_filter := false } }
    0).2.2.2.2.2.2.mpr (by constructor <;> simp [roleOK])

/-! ## Lemmas: first-occurrence dedup -/

theorem mem_dedupFirst [DecidableEq κ] {x : κ} {l : List κ} :
    x ∈ dedupFirst l ↔ x ∈ l := by
  induction l with
  | nil => simp [dedupFirst]
  | cons k ks ih =>
    simp only [dedupFirst, List.mem_cons, List.mem_filter]
    constructor
    · rintro (rfl | ⟨hx, _⟩)
      · exact Or.inl rfl
      · exact Or.inr (ih.mp hx)
    · rintro (rfl | hx)
      · exact Or.inl rfl
      · by_cases hxk : x = k
        · exact Or.inl hxk
        · exact Or.inr ⟨ih.mpr hx, by simpa using hxk⟩

theorem nodup_dedupFirst [DecidableEq κ] (l : List κ) :
    (dedupFirst l).Nodup := by
  induction l with
  | nil => simp [dedupFirst]
  | cons k ks ih =>
    simp only [dedupFirst, List.nodup_cons]
    refine ⟨?_, List.Nodup.filter _ ih⟩
    intro hk
    have := (List.mem_filter.mp hk).2
    simp at this

/-! ## Lemmas: runs and contiguity -/

theorem collapseRuns_cons [DecidableEq κ] (k : κ) (l : List κ) :
    collapseRuns (k :: l) =
      match collapseRuns l with
      | [] => [k]
      | k2 :: ks2 => if k = k2 then k2 :: ks2 else k :: k2 :: ks2 := rfl

theorem collapseRuns_cons_head [DecidableEq κ] (k : κ) (l : List κ) :
    ∃ t, collapseRuns (k :: l) = k :: t := by
  rw [collapseRuns_cons]
  cases h : collapseRuns l with
  | nil => exact ⟨[], rfl⟩
  | cons k2 ks2 =>
    by_cases hk : k = k2
    · subst hk; simp
    · simp [hk]

theorem collapseRuns_replicate_append [DecidableEq κ] (m : Nat) (k : κ)
    (l : List κ) :
    collapseRuns (List.replicate (m + 1) k ++ l) = collapseRuns (k :: l) := by
  induction m with
  | zero => simp
  | succ m ih =>
    have hsplit : List.replicate (m + 2) k ++ l =
        k :: (List.replicate (m + 1) k ++ l) := by
      simp [List.replicate_succ]
    rw [hsplit, collapseRuns_cons]
    obtain ⟨t, ht⟩ := collapseRuns_cons_head k l
    rw [ih, ht]
    simp

theorem collapseRuns_flatten_sublist [DecidableEq κ] (f : α → κ) (u : ι → κ)
    (g : ι → List α) :
    ∀ ks : List ι, (∀ k ∈ ks, ∀ x ∈ g k, f x = u k) →
      (collapseRuns (((ks.map g).flatten).map f)).Sublist (ks.map u) := by
  intro ks
  induction ks with
  | nil => intro _; simp [collapseRuns]
  | cons k ks ih =>
    intro h
    have hh : ∀ x ∈ g k, f x = u k := h k (List.mem_cons_self k ks)
    have hrest := ih (fun k2 hk2 => h k2 (List.mem_cons_of_mem _ hk2))
    simp only [List.map_cons, List.flatten_cons, List.map_append]
    have hrep : (g k).map f = List.replicate ((g k).map f).length (u k) := by
      apply List.eq_replicate_of_mem
      intro b hb
      rcases List.mem_map.mp hb with ⟨x, hx, rfl⟩
      exact hh x hx
    rw [hrep]
    cases hm : ((g k).map f).length with
    | zero =>
      simp only [List.replicate, List.nil_append]
      exact List.Sublist.cons (u k) hrest
    | succ m =>
      rw [collapseRuns_replicate_append, collapseRuns_cons]
      cases hc : collapseRuns (((ks.map g).flatten).map f) with
      | nil => simpa using List.Sublist.cons₂ (u k) (List.nil_sublist _)
      | cons k2 t =>
        rw [hc] at hrest
        by_cases hk2 : u k = k2
        · simp only [hk2, if_true]
          exact List.Sublist.cons k2 hrest
        · simp only [hk2, if_false]
          exact List.Sublist.cons₂ (u k) hrest

/-- A flattened list of key-homogeneous blocks with pairwise-distinct
keys keeps all records of a key contiguous. -/
theorem contiguous_of_blocks [DecidableEq κ] (f : α → κ) (u : ι → κ)
    (g : ι → List α) (ks : List ι) (hnd : (ks.map u).Nodup)
    (hall : ∀ k ∈ ks, ∀ x ∈ g k, f x = u k) :
    ContiguousBy f ((ks.map g).flatten) :=
  List.Nodup.sublist (collapseRuns_flatten_sublist f u g ks hall) hnd

/-! ## Normal forms of the stage outputs -/

theorem rddCollect_rddMap (f : α → β) (r : RDD α) :
    rddCollect (rddMap f r) = (rddCollect r).map f := by
  simp [rddCollect, rddMap, List.map_flatten]

theorem discard_single (sv : Bool) (p : List (κ × List Line)) :
    _discard_key_and_flatten_values [p] sv =
      [p.flatMap (fun kl => sortOpt sv kl.2)] := by
  cases sv <;> simp [_discard_key_and_flatten_values, rddFlatMap, sortOpt]

/-- `_shuffle_and_sort` produces one partition: for each raw key in
order of first occurrence, that key's lines (in input order, sorted when
`sort_values` is set), concatenated. -/
theorem shuffle_collect (rdd : RDD Line) (sv : Bool) :
    _shuffle_and_sort rdd sv =
      [((dedupFirst ((rddCollect rdd).map rawKey)).map
        (fun k => sortOpt sv
          ((rddCollect rdd).filter (fun x => decide (rawKey x = k))))).flatten] := by
  rw [_shuffle_and_sort, rddGroupBy, discard_single]
  congr 1
  rw [List.flatMap_def, List.map_map]
  rfl

theorem filterMap_eq_map_of_some {f : α → Option β} {g : α → β}
    (l : List α) (h : ∀ x ∈ l, f x = some (g x)) : l.filterMap f = l.map g := by
  induction l with
  | nil => rfl
  | cons x xs ih =>
    rw [List.filterMap_cons, h x (List.mem_cons_self x xs), List.map_cons,
      ih (fun y hy => h y (List.mem_cons_of_mem x hy))]

/-- `_run_combiner` produces one partition: for each decoded key in
order of first occurrence, the accumulated combiner output pairs of that
key's lines, re-encoded (sorted when `sort_values` is set),
concatenated. -/
theorem combiner_collect [DecidableEq K] (job : Job K V) (rdd : RDD Line)
    (sv : Bool) :
    _run_combiner job rdd sv =
      [((dedupFirst ((rddCollect rdd).map (jk job))).map
        (fun k => sortOpt sv
          ((combinedPairs job
            ((rddCollect rdd).filter (fun l => decide (jk job l = k)))).map
              (fun p => job.c_write p.1 p.2)))).flatten] := by
  rw [_run_combiner]
  rw [rddCombineByKey]
  have hc2 : rddCollect (rddMap (fun k_v : K × V => (k_v.1, k_v))
      (rddMap job.c_read rdd)) =
        ((rddCollect rdd).map job.c_read).map (fun k_v => (k_v.1, k_v)) := by
    rw [rddCollect_rddMap, rddCollect_rddMap]
  rw [hc2]
  set xs := rddCollect rdd with hxs
  have hkeys : (((xs.map job.c_read).map (fun k_v => (k_v.1, k_v))).map
      Prod.fst) = xs.map (jk job) := by
    simp [List.map_map, jk, Function.comp]
  rw [hkeys]
  have hvals : ∀ k : K,
      ((((xs.map job.c_read).map (fun k_v => (k_v.1, k_v))).filter
        (fun p => decide (p.1 = k))).map Prod.snd) =
        (xs.filter (fun l => decide (jk job l = k))).map job.c_read := by
    intro k
    rw [List.map_map, List.filter_map, List.map_map]
    rfl
  have hfm : (dedupFirst (xs.map (jk job))).filterMap
      (fun k => (fold1 (fun k_v => [k_v])
        (fun l k_v => combiner_helper job.combine_pairs l [k_v])
        ((((xs.map job.c_read).map (fun k_v => (k_v.1, k_v))).filter
          (fun p => decide (p.1 = k))).map Prod.snd)).map
            (fun c => (k, c))) =
      (dedupFirst (xs.map (jk job))).map
        (fun k => (k, combinedPairs job
          (xs.filter (fun l => decide (jk job l = k))))) := by
    apply filterMap_eq_map_of_some
    intro k hk
    rw [hvals k]
    rcases List.mem_map.mp (mem_dedupFirst.mp hk) with ⟨l0, hl0, rfl⟩
    have hne : xs.filter (fun l => decide (jk job l = jk job l0)) ≠ [] := by
      intro hnil
      have : l0 ∈ xs.filter (fun l => decide (jk job l = jk job l0)) :=
        List.mem_filter.mpr ⟨hl0, by simp⟩
      rw [hnil] at this
      exact absurd this (List.not_mem_nil l0)
    have hne2 : (xs.filter (fun l => decide (jk job l = jk job l0))).map
        job.c_read ≠ [] := by
      intro hnil
      exact hne (List.map_eq_nil_iff.mp hnil)
    rw [combinedPairs]
    cases hcase : (xs.filter (fun l => decide (jk job l = jk job l0))).map
        job.c_read with
    | nil => exact absurd hcase hne2
    | cons p ps => simp [fold1, hcase]
  rw [hfm]
  rw [rddMapValues, rddMap]
  simp only [List.map_cons, List.map_nil, List.map_map]
  rw [discard_single]
  congr 1
  rw [List.flatMap_def, List.map_map]
  rfl

/-- Keys of the pairs accumulated by the combiner stage for one key's
lines: provided the job's combiner preserves keys, every accumulated
pair keeps that key. -/
theorem combinedPairs_key [DecidableEq K] (job : Job K V) (k : K)
    (hcp : ∀ ps, (∀ p ∈ ps, p.1 = k) →
      ∀ q ∈ job.combine_pairs ps, q.1 = k)
    (ls : List Line) (hls : ∀ l ∈ ls, jk job l = k) :
    ∀ p ∈ combinedPairs job ls, p.1 = k := by
  have hstep : ∀ (acc : List (K × V)) (v : K × V),
      (∀ p ∈ acc, p.1 = k) → v.1 = k →
      ∀ p ∈ combiner_helper job.combine_pairs acc [v], p.1 = k := by
    intro acc v hacc hv p hp
    rw [combiner_helper] at hp
    split_ifs at hp with hlen
    · refine hcp (acc ++ [v]) ?_ p hp
      intro q hq
      rcases List.mem_append.mp hq with hq | hq
      · exact hacc q hq
      · rcases List.mem_singleton.mp hq with rfl
        exact hv
    · rcases List.mem_append.mp hp with hq | hq
      · exact hacc p hq
      · rcases List.mem_singleton.mp hq with rfl
        exact hv
  have hfold : ∀ (vs : List (K × V)) (acc : List (K × V)),
      (∀ p ∈ acc, p.1 = k) → (∀ v ∈ vs, v.1 = k) →
      ∀ p ∈ vs.foldl (fun a v => combiner_helper job.combine_pairs a [v]) acc,
        p.1 = k := by
    intro vs
    induction vs with
    | nil => intro acc hacc _ p hp; exact hacc p hp
    | cons v vs ih =>
      intro acc hacc hvs p hp
      simp only [List.foldl_cons] at hp
      exact ih (combiner_helper job.combine_pairs acc [v])
        (hstep acc v hacc (hvs v (List.mem_cons_self v vs)))
        (fun w hw => hvs w (List.mem_cons_of_mem v hw)) p hp
  intro p hp
  rw [combinedPairs] at hp
  cases hcase : ls.map job.c_read with
  | nil => rw [hcase] at hp; simp [fold1] at hp
  | cons q qs =>
    rw [hcase] at hp
    simp only [fold1, Option.getD_some] at hp
    have hqk : ∀ w ∈ q :: qs, w.1 = k := by
      intro w hw
      rw [← hcase] at hw
      rcases List.mem_map.mp hw with ⟨l, hl, rfl⟩
      exact hls l hl
    refine hfold qs [q] ?_ (fun w hw => hqk w (List.mem_cons_of_mem q hw)) p hp
    intro w hw
    have hwq := List.mem_singleton.mp hw
    rw [hwq]
    exact hqk q (List.mem_cons_self q qs)

/-! ## C3: grouping correctness -/

/-- C3: in the output of the Shuffle-Sort Emulator, and — for a job
whose key encoding is injective (so distinct decoded keys re-encode to
distinct raw keys, none containing a TAB) and whose combiner preserves
keys — in the output of the Combiner Stage, all encoded records sharing
the same key (the bytes before the first TAB) appear contiguously within
each partition of the output collection. -/
theorem grouping_contiguous {K V : Type} [DecidableEq K] (sv : Bool)
    (rdd : RDD Line) (job : Job K V) (keyEnc : K → Line)
    (hwrite : ∀ k v, rawKey (job.c_write k v) = keyEnc k)
    (hinj : Function.Injective keyEnc)
    (hcp : ∀ k ps, (∀ p ∈ ps, p.1 = k) →
      ∀ q ∈ job.combine_pairs ps, q.1 = k) :
    (∀ part ∈ _shuffle_and_sort rdd sv, ContiguousBy rawKey part) ∧
    (∀ part ∈ _run_combiner job rdd sv, ContiguousBy rawKey part) := by
  constructor
  · intro part hpart
    rw [shuffle_collect] at hpart
    have hp := List.mem_singleton.mp hpart
    subst hp
    apply contiguous_of_blocks rawKey id _ _
    · simpa using nodup_dedupFirst ((rddCollect rdd).map rawKey)
    · intro k _ x hx
      have hx' := mem_sortOpt.mp hx
      have hfx := List.mem_filter.mp hx'
      simpa using hfx.2
  · intro part hpart
    rw [combiner_collect] at hpart
    have hp := List.mem_singleton.mp hpart
    subst hp
    apply contiguous_of_blocks rawKey keyEnc _ _
    · exact List.Nodup.map hinj (nodup_dedupFirst _)
    · intro k _ x hx
      have hx' := mem_sortOpt.mp hx
      rcases List.mem_map.mp hx' with ⟨p, hp2, rfl⟩
      have hkey : p.1 = k := by
        refine combinedPairs_key job k (hcp k) _ ?_ p hp2
        intro l hl
        have hfl := List.mem_filter.mp hl
        simpa using hfl.2
      rw [hwrite p.1 p.2, hkey]

/-- A concrete job for witnesses: keys decode to the length of the raw
key, re-encode in unary (as `1`-bytes, never a TAB), values carry the
line; mapper, combiner and reducer entry points are identities. -/
def jobW3 : Job Nat Line where
  m_read := fun l => ((rawKey l).length, l)
  m_write := fun _ v => v
  c_read := fun l => ((rawKey l).length, l)
  c_write := fun k v => List.replicate k 1 ++ TAB :: v
  r_read := fun l => ((rawKey l).length, l)
  r_write := fun _ v => v
  map_pairs := fun ps => ps
  combine_pairs := fun ps => ps
  reduce_pairs := fun ps => ps
  sort_values := false

theorem rawKey_keyEnc (k : Nat) (v : Line) :
    rawKey (List.replicate k 1 ++ TAB :: v) = List.replicate k 1 := by
  rw [rawKey_eq_takeWhile]
  induction k with
  | zero => simp [List.takeWhile_cons, TAB]
  | succ k ih => simp [List.replicate_succ, List.takeWhile_cons, TAB, ih]

theorem replicate_one_injective :
    Function.Injective (fun k : Nat => List.replicate k (1 : Nat)) := by
  intro a b h
  have := congrArg List.length h
  simpa using this

/-- Witness for C3: concrete input with an interleaved key pattern;
both stage outputs group the key's records contiguously. -/
theorem grouping_contiguous_witness :
    ContiguousBy rawKey ([[1, 9, 5], [1, 9, 3], [9, 7]] : List Line) ∧
    ContiguousBy rawKey
      ([[1, 9, 1, 9, 5], [1, 9, 1, 9, 3], [9, 9, 7]] : List Line) := by
  have h := grouping_contiguous false [[[1, 9, 5], [9, 7], [1, 9, 3]]] jobW3
    (fun k => List.replicate k 1) (fun k v => rawKey_keyEnc k v)
    replicate_one_injective (fun _ _ h q hq => h q hq)
  exact ⟨h.1 _ (by decide), h.2 _ (by decide)⟩

/-! ## C7 and C10: step-range selection -/

theorem foldlM_map {m : Type u → Type v} [Monad m] {s : Type u}
    (g : β → α) (f : s → α → m s) (l : List β) (init : s) :
    (l.map g).foldlM f init = l.foldlM (fun x y => f x (g y)) init := by
  induction l generalizing init with
  | nil => rfl
  | cons x xs ih => simp only [List.map_cons, List.foldlM_cons, ih]

/-- The Python slice `list(enumerate(xs))[i:j]` (for `0 ≤ i ≤ j ≤ |xs|`)
is exactly the indices `i, …, j-1` paired with their elements. -/
theorem slice_enum (xs : List α) (i j : Nat) (hij : i ≤ j)
    (hj : j ≤ xs.length) (d : α) :
    pySlice xs.enum (some i) (some j) =
      (List.range' i (j - i)).map (fun n => (n, xs.getD n d)) := by
  apply List.ext_getElem
  · simp [pySlice, List.length_drop, List.length_take, List.enum_length]
    omega
  · intro n h1 h2
    have hlen : (pySlice xs.enum (some i) (some j)).length = j - i := by
      simp [pySlice, List.length_drop, List.length_take, List.enum_length]
      omega
    have hn : n < j - i := hlen ▸ h1
    have hin : i + n < xs.length := by omega
    have hbound : i + n < xs.enum.length := by
      simp [List.enum_length]
      omega
    have e1 : (pySlice xs.enum (some i) (some j))[n] = xs.enum[i + n] := by
      simp only [pySlice, Option.getD_some]
      rw [List.getElem_drop, List.getElem_take]
    rw [e1]
    rw [List.getElem_enum]
    rw [List.getElem_map, List.getElem_range']
    simp only [Nat.one_mul]
    rw [List.getD_eq_getElem xs d (by omega : i + n < xs.length)]

/-- C7: with `--start-step=i` and `--end-step=j` for `0 ≤ i ≤ j ≤ N`,
the main loop runs `_run_step` exactly on the step indices in `[i, j)`,
in increasing order, threading each step's output RDD into the next
step; no other step is touched. -/
theorem step_range_selection {K V : Type} [DecidableEq K]
    (steps : List StepDesc) (make_job : Nat → Job K V) (i j : Nat)
    (rdd : RDD Line) (hij : i ≤ j) (hj : j ≤ steps.length) :
    (pySlice steps.enum (some i) (some j)).map Prod.fst =
      List.range' i (j - i) ∧
    mainLoop steps make_job (some i) (some j) rdd =
      (List.range' i (j - i)).foldlM
        (fun r n => _run_step (steps.getD n default) n r (make_job n)) rdd := by
  have hs := slice_enum steps i j hij hj default
  constructor
  · rw [hs, List.map_map]
    have : (Prod.fst ∘ fun n => (n, steps.getD n default)) = id := rfl
    rw [this, List.map_id]
  · rw [mainLoop, hs, foldlM_map]

/-- Witness for C7: a three-step job with `--start-step=1 --end-step=2`
runs exactly step index 1. -/
theorem step_range_selection_witness :
    (pySlice
      ([{ type := some "streaming", input_manifest := false, mapper := none,
          combiner := none, reducer := none },
        { type := some "streaming", input_manifest := false, mapper := none,
          combiner := none, reducer := none },
        { type := some "streaming", input_manifest := false, mapper := none,
          combiner := none, reducer := none }] : List StepDesc).enum
      (some 1) (some 2)).map Prod.fst = [1] ∧
    mainLoop
      ([{ type := some "streaming", input_manifest := false, mapper := none,
          combiner := none, reducer := none },
        { type := some "streaming", input_manifest := false, mapper := none,
          combiner := none, reducer := none },
        { type := some "streaming", input_manifest := false, mapper := none,
          combiner := none, reducer := none }] : List StepDesc)
      (fun _ => jobW3) (some 1) (some 2) [[[5]]] =
    (List.range' 1 1).foldlM
      (fun r n => _run_step
        (([{ type := some "streaming", input_manifest := false, mapper := none,
             combiner := none, reducer := none },
           { type := some "streaming", input_manifest := false, mapper := none,
             combiner := none, reducer := none },
           { type := some "streaming", input_manifest := false, mapper := none,
             combiner := none, reducer := none }] : List StepDesc).getD n
          default) n r jobW3) [[[5]]] := by
  have h := step_range_selection
    ([{ type := some "streaming", input_manifest := false, mapper := none,
        combiner := none, reducer := none },
      { type := some "streaming", input_manifest := false, mapper := none,
        combiner := none, reducer := none },
      { type := some "streaming", input_manifest := false, mapper := none,
        combiner := none, reducer := none }] : List StepDesc)
    (fun _ => jobW3) 1 2 [[[5]]] (by decide) (by decide)
  exact h

theorem getD_middle (l1 l2 l3 : List α) (n : Nat) (d : α)
    (h1 : l1.length ≤ n) (h2 : n < l1.length + l2.length) :
    (l1 ++ l2 ++ l3).getD n d = l2.getD (n - l1.length) d := by
  rw [List.getD_eq_getElem?_getD, List.getD_eq_getElem?_getD]
  rw [List.append_assoc]
  rw [List.getElem?_append_right (by simpa using h1)]
  rw [List.getElem?_append, if_pos (by omega)]

/-- C10: the loop validates and runs only steps inside the selected
range: its result depends only on the steps with indices in
`[i, i + |mid|)`, so a step descriptor with unsupported features outside
that range can never abort the job. -/
theorem out_of_range_steps_ignored {K V : Type} [DecidableEq K]
    (i : Nat) (pre mid post pre2 post2 : List StepDesc)
    (make_job : Nat → Job K V) (rdd : RDD Line)
    (hpre : pre.length = i) (hpre2 : pre2.length = i) :
    mainLoop (pre ++ mid ++ post) make_job (some i) (some (i + mid.length))
      rdd =
    mainLoop (pre2 ++ mid ++ post2) make_job (some i) (some (i + mid.length))
      rdd := by
  have hs1 := slice_enum (pre ++ mid ++ post) i (i + mid.length)
    (Nat.le_add_right i mid.length) (by simp; omega) default
  have hs2 := slice_enum (pre2 ++ mid ++ post2) i (i + mid.length)
    (Nat.le_add_right i mid.length) (by simp; omega) default
  rw [mainLoop, mainLoop, hs1, hs2]
  have hmaps : (List.range' i (i + mid.length - i)).map
      (fun n => (n, (pre ++ mid ++ post).getD n default)) =
    (List.range' i (i + mid.length - i)).map
      (fun n => (n, (pre2 ++ mid ++ post2).getD n default)) := by
    apply List.map_congr_left
    intro n hn
    have hn' := List.mem_range'_1.mp hn
    have hrange : i ≤ n ∧ n < i + mid.length := by
      constructor
      · exact hn'.1
      · have := hn'.2
        omega
    rw [getD_middle pre mid post n default (by omega) (by omega)]
    rw [getD_middle pre2 mid post2 n default (by omega) (by omega)]
    rw [hpre, hpre2]
  rw [hmaps]

/-- Witness for C10: an unsupported step (not `"streaming"`, with an
input manifest) before and after the selected range does not change the
result, hence cannot abort the run. -/
theorem out_of_range_steps_ignored_witness :
    mainLoop
      ([{ type := some "spark", input_manifest := true, mapper := none,
          combiner := none, reducer := none }] ++
       [{ type := some "streaming", input_manifest := false, mapper := none,
          combiner := none, reducer := none }] ++
       [{ type := some "spark", input_manifest := true, mapper := none,
          combiner := none, reducer := none }])
      (fun _ => jobW3) (some 1) (some 2) [[[5]]] =
    mainLoop
      ([{ type := some "streaming", input_manifest := false, mapper := none,
          combiner := none, reducer := none }] ++
       [{ type := some "streaming", input_manifest := false, mapper := none,
          combiner := none, reducer := none }] ++ [])
      (fun _ => jobW3) (some 1) (some 2) [[[5]]] := by
  have h := out_of_range_steps_ignored 1
    [{ type := some "spark", input_manifest := true, mapper := none,
       combiner := none, reducer := none }]
    [{ type := some "streaming", input_manifest := false, mapper := none,
       combiner := none, reducer := none }]
    [{ type := some "spark", input_manifest := true, mapper := none,
       combiner := none, reducer := none }]
    [{ type := some "streaming", input_manifest := false, mapper := none,
       combiner := none, reducer := none }]
    [] (fun _ => jobW3) [[[5]]] (by decide) (by decide)
  exact h

/-! ## C6: malformed combiners -/

/-- A concrete job for counterexamples: the combiner-role codec encodes
every pair as the line `[7]`, while the reducer-role decoder reads the
line length as value; so the combiner path and the shuffle-sort path are
observably different. -/
def jobCex : Job Nat Nat where
  m_read := fun _ => (0, 0)
  m_write := fun _ _ => [0]
  c_read := fun _ => (0, 0)
  c_write := fun _ _ => [7]
  r_read := fun l => (0, l.length)
  r_write := fun _ v => [v]
  map_pairs := fun ps => ps
  combine_pairs := fun ps => ps
  reduce_pairs := fun ps => ps
  sort_values := false

/-- A streaming step with a script reducer and a present but malformed
combiner substep (its type is `"command"`, not `"script"`). -/
def stepMalformedCombiner : StepDesc where
  type := some "streaming"
  input_manifest := false
  mapper := none
  combiner := some { type := some "command", pre_filter := false }
  reducer := some { type := some "script", pre_filter := false }

/-- Counterexample to C6: on a step with a present but malformed
combiner descriptor, `_run_step` still takes the combiner path — it does
not degrade to the shuffle-sort-only path, and the combiner-role codec
(part of the combiner machinery the claim says is never invoked) shapes
the output. -/
theorem malformed_combiner_counterexample :
    _run_step stepMalformedCombiner 0 [[[5, 9, 3]]] jobCex =
      Except.ok [[[1]]] ∧
    _run_reducer jobCex
      (_shuffle_and_sort [[[5, 9, 3]]] jobCex.sort_values) = [[[3]]] ∧
    ¬ _run_step stepMalformedCombiner 0 [[[5, 9, 3]]] jobCex =
        Except.ok (_run_reducer jobCex
          (_shuffle_and_sort [[[5, 9, 3]]] jobCex.sort_values)) := by
  refine ⟨rfl, rfl, ?_⟩
  intro h
  rw [show _run_step stepMalformedCombiner 0 [[[5, 9, 3]]] jobCex =
      Except.ok [[[1]]] from rfl,
    show _run_reducer jobCex
      (_shuffle_and_sort [[[5, 9, 3]]] jobCex.sort_values) = [[[3]]] from
        rfl] at h
  exact absurd (Except.ok.inj h) (by decide)

/-- C6 (amended): a present but malformed combiner substep raises no
error — validation never looks at the combiner — but the step does not
degrade to the shuffle-sort-only path: whenever a combiner descriptor is
present (well-formed or not), `_run_step` runs the combiner stage. -/
theorem malformed_combiner_no_error {K V : Type} [DecidableEq K]
    (sd : StepDesc) (n : Nat) (job : Job K V) (rdd : RDD Line)
    (ht : sd.type = some "streaming") (hman : sd.input_manifest = false)
    (hm : roleOK sd.mapper) (hr : roleOK sd.reducer)
    (hc : sd.combiner.isSome) :
    _check_step sd n = Except.ok () ∧
    _run_step sd n rdd job = Except.ok
      (let sv := if sd.reducer.isSome then job.sort_values else false
       let rdd1 := if sd.mapper.isSome then _run_mapper job rdd else rdd
       let rdd2 := _run_combiner job rdd1 sv
       if sd.reducer.isSome then _run_reducer job rdd2 else rdd2) := by
  have hok : _check_step sd n = Except.ok () :=
    (check_step_characterization sd n).2.2.2.2.2.2.mpr ⟨ht, hman, hm, hr⟩
  refine ⟨hok, ?_⟩
  rw [_run_step, hok]
  simp only [hc, if_true]
  rfl

/-- Witness for the amended C6, at the concrete malformed-combiner step:
validation passes and the combiner path is taken. -/
theorem malformed_combiner_no_error_witness :
    _check_step stepMalformedCombiner 0 = Except.ok () ∧
    _run_step stepMalformedCombiner 0 [[[5, 9, 3]]] jobCex = Except.ok
      (let sv := if stepMalformedCombiner.reducer.isSome then
          jobCex.sort_values else false
       let rdd1 := if stepMalformedCombiner.mapper.isSome then
          _run_mapper jobCex [[[5, 9, 3]]] else [[[5, 9, 3]]]
       let rdd2 := _run_combiner jobCex rdd1 sv
       if stepMalformedCombiner.reducer.isSome then
          _run_reducer jobCex rdd2 else rdd2) := by
  exact malformed_combiner_no_error stepMalformedCombiner 0 jobCex
    [[[5, 9, 3]]] rfl rfl trivial (by constructor <;> rfl) rfl

/-! ## C8: steps with no mapper and no reducer -/

/-- A valid streaming step whose only role is a (well-formed)
combiner. -/
def stepCombinerOnly : StepDesc where
  type := some "streaming"
  input_manifest := false
  mapper := none
  combiner := some { type := some "script", pre_filter := false }
  reducer := none

/-- Counterexample to C8: a valid step with no mapper and no reducer but
with a combiner is not a passthrough — the combiner stage transforms the
collection. -/
theorem passthrough_counterexample :
    _check_step stepCombinerOnly 0 = Except.ok () ∧
    stepCombinerOnly.mapper = none ∧ stepCombinerOnly.reducer = none ∧
    _run_step stepCombinerOnly 0 [[[5]]] jobCex = Except.ok [[[7]]] ∧
    ¬ _run_step stepCombinerOnly 0 [[[5]]] jobCex = Except.ok [[[5]]] := by
  refine ⟨rfl, rfl, rfl, rfl, ?_⟩
  intro h
  rw [show _run_step stepCombinerOnly 0 [[[5]]] jobCex =
      Except.ok [[[7]]] from rfl] at h
  exact absurd (Except.ok.inj h) (by decide)

/-- C8 (amended): a valid step with no mapper, no combiner and no
reducer is a no-op passthrough: it is not rejected and `_run_step`
returns the input collection unchanged. -/
theorem no_roles_passthrough {K V : Type} [DecidableEq K] (sd : StepDesc)
    (n : Nat) (job : Job K V) (rdd : RDD Line)
    (ht : sd.type = some "streaming") (hman : sd.input_manifest = false)
    (hm : sd.mapper = none) (hc : sd.combiner = none)
    (hr : sd.reducer = none) :
    _run_step sd n rdd job = Except.ok rdd := by
  have hok : _check_step sd n = Except.ok () := by
    refine (check_step_characterization sd n).2.2.2.2.2.2.mpr
      ⟨ht, hman, ?_, ?_⟩
    · rw [hm]; trivial
    · rw [hr]; trivial
  rw [_run_step, hok]
  simp only [hm, hc, hr, Option.isSome_none, Bool.false_eq_true, if_false]
  rfl

/-- Witness for the amended C8 at a concrete role-less step. -/
theorem no_roles_passthrough_witness :
    _run_step
      { type := some "streaming", input_manifest := false, mapper := none,
        combiner := none, reducer := none } 0 [[[5]]] jobCex =
      Except.ok [[[5]]] :=
  no_roles_passthrough _ 0 jobCex [[[5]]] rfl rfl rfl rfl rfl

/-! ## Lemmas: run-grouping of concatenated key blocks -/

theorem groupRuns_cons [DecidableEq κ] (f : α → κ) (x : α) (l : List α) :
    groupRuns f (x :: l) =
      match groupRuns f l with
      | [] => [(f x, [x])]
      | (k, run) :: rest =>
        if f x = k then (k, x :: run) :: rest
        else (f x, [x]) :: (k, run) :: rest := rfl

theorem groupRuns_head_key [DecidableEq κ] (f : α → κ) (x : α) (l : List α) :
    ∃ run rest, groupRuns f (x :: l) = (f x, x :: run) :: rest := by
  rw [groupRuns_cons]
  cases h : groupRuns f l with
  | nil => exact ⟨[], [], rfl⟩
  | cons kr rest =>
    obtain ⟨k, run⟩ := kr
    by_cases hk : f x = k
    · subst hk
      exact ⟨run, rest, by simp⟩
    · exact ⟨[], (k, run) :: rest, by simp [hk]⟩

theorem groupRuns_block_append [DecidableEq κ] (f : α → κ) (k : κ) :
    ∀ (bl rest : List α), bl ≠ [] → (∀ x ∈ bl, f x = k) →
      (∀ y, rest.head? = some y → ¬ f y = k) →
      groupRuns f (bl ++ rest) = (k, bl) :: groupRuns f rest := by
  intro bl
  induction bl with
  | nil => intro rest h; exact absurd rfl h
  | cons x bl ih =>
    intro rest _ hall hhead
    have hfx : f x = k := hall x (List.mem_cons_self x bl)
    cases bl with
    | nil =>
      rw [List.singleton_append]
      cases rest with
      | nil => simp [groupRuns, hfx]
      | cons y ys =>
        obtain ⟨run, rest2, hg⟩ := groupRuns_head_key f y ys
        have hyk : ¬ f y = k := hhead y rfl
        have hky : ¬ k = f y := fun h => hyk h.symm
        rw [groupRuns_cons, hg]
        simp only [hfx]
        rw [if_neg hky, ← hg]
    | cons x2 bl2 =>
      have hih := ih rest (by simp)
        (fun z hz => hall z (List.mem_cons_of_mem x hz)) hhead
      rw [List.cons_append, groupRuns_cons, hih]
      simp only [hfx, if_true, if_pos]

theorem groupRuns_flatten [DecidableEq κ] (f : α → κ) :
    ∀ (ks : List κ) (g : κ → List α), ks.Nodup →
      (∀ k ∈ ks, ∀ x ∈ g k, f x = k) →
      groupRuns f ((ks.map g).flatten) =
        ks.filterMap (fun k =>
          match g k with
          | [] => none
          | a :: bl => some (k, a :: bl)) := by
  intro ks
  induction ks with
  | nil => intro g _ _; rfl
  | cons k ks ih =>
    intro g hnd hall
    rcases List.nodup_cons.mp hnd with ⟨hk, hnd2⟩
    have hall2 : ∀ k2 ∈ ks, ∀ x ∈ g k2, f x = k2 :=
      fun k2 h2 => hall k2 (List.mem_cons_of_mem k h2)
    have hhead : ∀ y, ((ks.map g).flatten).head? = some y → ¬ f y = k := by
      intro y hy hyk
      have hym : y ∈ (ks.map g).flatten := by
        cases hfl : (ks.map g).flatten with
        | nil => rw [hfl] at hy; simp at hy
        | cons a t =>
          rw [hfl] at hy
          simp only [List.head?_cons, Option.some.injEq] at hy
          subst hy
          exact List.mem_cons_self a t
      rcases List.mem_flatten.mp hym with ⟨bl, hbl, hybl⟩
      rcases List.mem_map.mp hbl with ⟨k2, hk2, rfl⟩
      have hfk2 : f y = k2 := hall2 k2 hk2 y hybl
      rw [hfk2] at hyk
      exact hk (hyk ▸ hk2)
    simp only [List.map_cons, List.flatten_cons, List.filterMap_cons]
    cases hgk : g k with
    | nil =>
      simp only [List.nil_append]
      rw [ih g hnd2 hall2]
    | cons a bl =>
      rw [groupRuns_block_append f k (a :: bl) ((ks.map g).flatten)
        (by simp) (hgk ▸ hall k (List.mem_cons_self k ks)) hhead]
      rw [ih g hnd2 hall2]

theorem flatMap_filterMap (h : α → Option β) (F : β → List γ) (l : List α) :
    (l.filterMap h).flatMap F =
      l.flatMap (fun x => ((h x).map F).getD []) := by
  induction l with
  | nil => rfl
  | cons x xs ih =>
    cases hx : h x <;>
      simp [List.filterMap_cons, hx, ih]

theorem flatMap_congr_left (l : List α) {f g : α → List β}
    (h : ∀ x ∈ l, f x = g x) : l.flatMap f = l.flatMap g := by
  induction l with
  | nil => rfl
  | cons x xs ih =>
    simp only [List.flatMap_cons, h x (List.mem_cons_self x xs),
      ih (fun y hy => h y (List.mem_cons_of_mem x hy))]

theorem map_flatMap (g : β → γ) (f : α → List β) (l : List α) :
    (l.flatMap f).map g = l.flatMap (fun x => (f x).map g) := by
  induction l with
  | nil => rfl
  | cons x xs ih => simp [List.flatMap_cons, ih]

/-- The spec-modelled reducer entry point on a concatenation of
key-homogeneous blocks (with pairwise-distinct keys) applies the
per-group logic once per nonempty block. -/
theorem spec_reduce_flatten {K V : Type} [DecidableEq K]
    (red : K → List V → List (K × V)) (ks : List K)
    (g : K → List (K × V)) (hnd : ks.Nodup)
    (hall : ∀ k ∈ ks, ∀ p ∈ g k, p.1 = k) :
    spec_reduce_pairs red ((ks.map g).flatten) =
      ks.flatMap (fun k =>
        match g k with
        | [] => []
        | _ :: _ => red k ((g k).map Prod.snd)) := by
  rw [spec_reduce_pairs, groupRuns_flatten Prod.fst ks g hnd hall,
    flatMap_filterMap]
  apply flatMap_congr_left
  intro k _
  cases hgk : g k with
  | nil => simp [hgk]
  | cons a bl => simp [hgk]

theorem dedupFirst_map_inj [DecidableEq κ] [DecidableEq ι] (u : ι → κ)
    (hinj : Function.Injective u) (l : List ι) :
    dedupFirst (l.map u) = (dedupFirst l).map u := by
  induction l with
  | nil => rfl
  | cons k ks ih =>
    simp only [List.map_cons, dedupFirst, ih]
    congr 1
    rw [List.filter_map]
    congr 1
    apply List.filter_congr
    intro x _
    by_cases hx : x = k
    · subst hx; simp
    · have hux : ¬ u x = u k := fun h => hx (hinj h)
      simp [hx, hux]

/-! ## C1: combiner equivalence -/

theorem rddCollect_singleton (P : List α) : rddCollect [P] = P := by
  simp [rddCollect]

theorem reducer_single [DecidableEq K] (job : Job K V) (P : List Line) :
    _run_reducer job [P] =
      [(job.reduce_pairs (P.map job.r_read)).map
        (fun p => job.r_write p.1 p.2)] := rfl

theorem map_flatten_eq (f : α → β) (L : List (List α)) :
    (L.flatten).map f = (L.map (List.map f)).flatten := by
  induction L with
  | nil => rfl
  | cons x xs ih => simp [ih]

/-- The reducer stage on one partition made of key-homogeneous blocks
(under the spec-modelled `reduce_pairs`) produces the per-block reducer
outputs, concatenated. -/
theorem reducer_on_blocks {K V : Type} [DecidableEq K] (job : Job K V)
    (red : K → List V → List (K × V))
    (H0 : job.reduce_pairs = spec_reduce_pairs red)
    (ks : List K) (g : K → List Line) (hnd : ks.Nodup)
    (hall : ∀ k ∈ ks, ∀ l ∈ g k, (job.r_read l).1 = k) :
    rddCollect (_run_reducer job [(ks.map g).flatten]) =
      ks.flatMap (fun k => redBlock job red k (g k)) := by
  rw [reducer_single, rddCollect_singleton, H0]
  have hmap : ((ks.map g).flatten).map job.r_read =
      ((ks.map (fun k => (g k).map job.r_read)).flatten) := by
    rw [map_flatten_eq, List.map_map]
    rfl
  rw [hmap]
  rw [spec_reduce_flatten red ks (fun k => (g k).map job.r_read) hnd
    (fun k hk p hp => by
      rcases List.mem_map.mp hp with ⟨l, hl, rfl⟩
      exact hall k hk l hl)]
  rw [map_flatMap]
  apply flatMap_congr_left
  intro k _
  cases hgk : g k with
  | nil => simp [hgk, redBlock]
  | cons a bl => simp [hgk, redBlock]

/-- Shuffle-sort followed by the reducer stage, collected: one reducer
output block per decoded key, in first-occurrence order, fed that key's
input lines. -/
theorem reducer_shuffle_collect {K V : Type} [DecidableEq K]
    (job : Job K V) (red : K → List V → List (K × V)) (sv : Bool)
    (rdd : RDD Line) (keyEnc : K → Line)
    (H0 : job.reduce_pairs = spec_reduce_pairs red)
    (hinj : Function.Injective keyEnc)
    (H1 : ∀ l ∈ rddCollect rdd, rawKey l = keyEnc (jk job l))
    (H5a : ∀ l ∈ rddCollect rdd, (job.r_read l).1 = jk job l) :
    rddCollect (_run_reducer job (_shuffle_and_sort rdd sv)) =
      (dedupFirst ((rddCollect rdd).map (jk job))).flatMap
        (fun k => keyedRedB job red sv k
          ((rddCollect rdd).filter (fun l => decide (jk job l = k)))) := by
  have hks : (rddCollect rdd).map rawKey =
      ((rddCollect rdd).map (jk job)).map keyEnc := by
    rw [List.map_map]
    exact List.map_congr_left H1
  have hfilters : ∀ k : K,
      (rddCollect rdd).filter (fun x => decide (rawKey x = keyEnc k)) =
      (rddCollect rdd).filter (fun l => decide (jk job l = k)) := by
    intro k
    apply List.filter_congr
    intro l hl
    rw [H1 l hl]
    by_cases h : jk job l = k
    · simp [h]
    · have hne : ¬ keyEnc (jk job l) = keyEnc k := fun hh => h (hinj hh)
      simp [h, hne]
  rw [shuffle_collect rdd sv]
  have hPb : ((dedupFirst ((rddCollect rdd).map rawKey)).map
      (fun k => sortOpt sv ((rddCollect rdd).filter
        (fun x => decide (rawKey x = k))))).flatten =
      ((dedupFirst ((rddCollect rdd).map (jk job))).map
        (fun k => sortOpt sv ((rddCollect rdd).filter
          (fun l => decide (jk job l = k))))).flatten := by
    rw [hks, dedupFirst_map_inj keyEnc hinj, List.map_map]
    congr 1
    apply List.map_congr_left
    intro k _
    exact congrArg (sortOpt sv) (hfilters k)
  rw [hPb]
  rw [reducer_on_blocks job red H0
    (dedupFirst ((rddCollect rdd).map (jk job)))
    (fun k => sortOpt sv ((rddCollect rdd).filter
      (fun l => decide (jk job l = k))))
    (nodup_dedupFirst _)
    (by
      intro k _ l hl
      have hl2 := mem_sortOpt.mp hl
      have hfl := List.mem_filter.mp hl2
      have hjk : jk job l = k := by simpa using hfl.2
      rw [H5a l hfl.1, hjk])]
  rfl

/-- The combiner stage followed by the reducer stage, collected: one
reducer output block per decoded key, in first-occurrence order, fed the
re-encoded accumulated combiner pairs of that key's input lines. -/
theorem reducer_combiner_collect {K V : Type} [DecidableEq K]
    (job : Job K V) (red : K → List V → List (K × V)) (sv : Bool)
    (rdd : RDD Line)
    (H0 : job.reduce_pairs = spec_reduce_pairs red)
    (H5b : ∀ (k : K) (v : V), (job.r_read (job.c_write k v)).1 = k)
    (hcp : ∀ k ps, (∀ p ∈ ps, p.1 = k) →
      ∀ q ∈ job.combine_pairs ps, q.1 = k) :
    rddCollect (_run_reducer job (_run_combiner job rdd sv)) =
      (dedupFirst ((rddCollect rdd).map (jk job))).flatMap
        (fun k => keyedRedA job red sv k
          ((rddCollect rdd).filter (fun l => decide (jk job l = k)))) := by
  rw [combiner_collect job rdd sv]
  rw [reducer_on_blocks job red H0
    (dedupFirst ((rddCollect rdd).map (jk job)))
    (fun k => sortOpt sv ((combinedPairs job ((rddCollect rdd).filter
      (fun l => decide (jk job l = k)))).map
        (fun p => job.c_write p.1 p.2)))
    (nodup_dedupFirst _)
    (by
      intro k _ l hl
      have hl2 := mem_sortOpt.mp hl
      rcases List.mem_map.mp hl2 with ⟨p, hp, rfl⟩
      have hpk : p.1 = k := by
        refine combinedPairs_key job k (hcp k) _ ?_ p hp
        intro l2 hl2f
        have hfl := List.mem_filter.mp hl2f
        simpa using hfl.2
      exact (H5b p.1 p.2).trans hpk)]
  rfl

/-- C1: for every input collection, the Combiner Stage followed by the
Reducer Stage yields the same final output set (hence the same
key-to-output-set mapping, the key being a function of the output line)
as the Shuffle-Sort Emulator followed by the same Reducer Stage —
under the hypotheses that the job's reducer entry point is the
spec-modelled per-key-group reducer, that raw keys and decoded keys
classify the input identically (an injective key encoding), that the
combiner preserves keys, and that the combiner does not change
reducer-observable results on any one key's batch (only
pre-aggregates). -/
theorem combiner_reducer_equivalence {K V : Type} [DecidableEq K]
    (job : Job K V) (red : K → List V → List (K × V)) (sv : Bool)
    (rdd : RDD Line) (keyEnc : K → Line)
    (H0 : job.reduce_pairs = spec_reduce_pairs red)
    (hinj : Function.Injective keyEnc)
    (H1 : ∀ l ∈ rddCollect rdd, rawKey l = keyEnc (jk job l))
    (H5a : ∀ l ∈ rddCollect rdd, (job.r_read l).1 = jk job l)
    (H5b : ∀ (k : K) (v : V), (job.r_read (job.c_write k v)).1 = k)
    (hcp : ∀ k ps, (∀ p ∈ ps, p.1 = k) →
      ∀ q ∈ job.combine_pairs ps, q.1 = k)
    (H4 : ∀ (k : K) (ls : List Line), ls ≠ [] →
      (∀ l ∈ ls, jk job l = k) →
      ∀ out, out ∈ keyedRedA job red sv k ls ↔
        out ∈ keyedRedB job red sv k ls)
    (l : Line) :
    l ∈ rddCollect (_run_reducer job (_run_combiner job rdd sv)) ↔
    l ∈ rddCollect (_run_reducer job (_shuffle_and_sort rdd sv)) := by
  rw [reducer_combiner_collect job red sv rdd H0 H5b hcp,
    reducer_shuffle_collect job red sv rdd keyEnc H0 hinj H1 H5a]
  rw [List.mem_flatMap, List.mem_flatMap]
  have hkey : ∀ k, k ∈ dedupFirst ((rddCollect rdd).map (jk job)) →
      (rddCollect rdd).filter (fun l2 => decide (jk job l2 = k)) ≠ [] ∧
      ∀ l2 ∈ (rddCollect rdd).filter (fun l2 => decide (jk job l2 = k)),
        jk job l2 = k := by
    intro k hk
    constructor
    · rcases List.mem_map.mp (mem_dedupFirst.mp hk) with ⟨l0, hl0, rfl⟩
      intro hnil
      have hmem : l0 ∈ (rddCollect rdd).filter
          (fun l2 => decide (jk job l2 = jk job l0)) :=
        List.mem_filter.mpr ⟨hl0, by simp⟩
      rw [hnil] at hmem
      exact absurd hmem (List.not_mem_nil l0)
    · intro l2 hl2
      have hfl := List.mem_filter.mp hl2
      simpa using hfl.2
  constructor
  · rintro ⟨k, hk, hl⟩
    exact ⟨k, hk, (H4 k _ (hkey k hk).1 (hkey k hk).2 l).mp hl⟩
  · rintro ⟨k, hk, hl⟩
    exact ⟨k, hk, (H4 k _ (hkey k hk).1 (hkey k hk).2 l).mpr hl⟩

/-- Per-group reducer logic for the C1 witness: one summary pair per
key. -/
def red0 : Nat → List Line → List (Nat × Line) :=
  fun k _ => [(k, List.replicate k 1 ++ [TAB])]

/-- A concrete job satisfying every hypothesis of the combiner
equivalence: unary key codec, identity combiner, spec-modelled reducer
built from `red0`. -/
def jobW1 : Job Nat Line where
  m_read := fun l => ((rawKey l).length, l)
  m_write := fun _ v => v
  c_read := fun l => ((rawKey l).length, l)
  c_write := fun k v => List.replicate k 1 ++ TAB :: v
  r_read := fun l => ((rawKey l).length, l)
  r_write := fun _ v => v
  map_pairs := fun ps => ps
  combine_pairs := fun ps => ps
  reduce_pairs := spec_reduce_pairs red0
  sort_values := false

/-- With an identity combiner, the accumulated pairs are exactly the
decoded input pairs. -/
theorem combinedPairs_id_combine [DecidableEq K] (job : Job K V)
    (hid : ∀ ps, job.combine_pairs ps = ps) (ls : List Line) :
    combinedPairs job ls = ls.map job.c_read := by
  have hstep : ∀ (a : List (K × V)) (v : K × V),
      combiner_helper job.combine_pairs a [v] = a ++ [v] := by
    intro a v
    rw [combiner_helper]
    split_ifs with h
    · rw [hid]
    · rfl
  have hfold : ∀ (qs acc : List (K × V)),
      qs.foldl (fun a v => combiner_helper job.combine_pairs a [v]) acc =
        acc ++ qs := by
    intro qs
    induction qs with
    | nil => intro acc; simp
    | cons q qs ih =>
      intro acc
      rw [List.foldl_cons, hstep, ih, List.append_assoc,
        List.singleton_append]
  rw [combinedPairs]
  cases h : ls.map job.c_read with
  | nil => rfl
  | cons p ps =>
    simp only [fold1, Option.getD_some, hfold]
    rfl

theorem jobW1_H5b : ∀ (k : Nat) (v : Line),
    (jobW1.r_read (jobW1.c_write k v)).1 = k := by
  intro k v
  show (rawKey (List.replicate k 1 ++ TAB :: v)).length = k
  rw [rawKey_keyEnc]
  exact List.length_replicate k 1

theorem jobW1_H4 : ∀ (k : Nat) (ls : List Line), ls ≠ [] →
    (∀ l ∈ ls, jk jobW1 l = k) →
    ∀ out, out ∈ keyedRedA jobW1 red0 false k ls ↔
      out ∈ keyedRedB jobW1 red0 false k ls := by
  intro k ls hne _ out
  have hA : keyedRedA jobW1 red0 false k ls =
      [List.replicate k 1 ++ [TAB]] := by
    rw [keyedRedA, combinedPairs_id_combine jobW1 (fun _ => rfl) ls]
    cases ls with
    | nil => exact absurd rfl hne
    | cons a as => simp [redBlock, sortOpt, red0, jobW1]
  have hB : keyedRedB jobW1 red0 false k ls =
      [List.replicate k 1 ++ [TAB]] := by
    rw [keyedRedB]
    cases ls with
    | nil => exact absurd rfl hne
    | cons a as => simp [redBlock, sortOpt, red0, jobW1]
  rw [hA, hB]

/-- Witness for C1: on a concrete input with two keys, the summary line
of key 1 appears in the combiner-then-reducer output exactly as in the
shuffle-then-reducer output. -/
theorem combiner_reducer_equivalence_witness :
    [1, 9] ∈ rddCollect (_run_reducer jobW1
      (_run_combiner jobW1 [[[1, 9, 2], [9, 4], [1, 9, 3]]] false)) ↔
    [1, 9] ∈ rddCollect (_run_reducer jobW1
      (_shuffle_and_sort [[[1, 9, 2], [9, 4], [1, 9, 3]]] false)) :=
  combiner_reducer_equivalence jobW1 red0 false
    [[[1, 9, 2], [9, 4], [1, 9, 3]]] (fun k => List.replicate k 1)
    rfl replicate_one_injective (by decide) (fun _ _ => rfl) jobW1_H5b
    (fun _ _ h q hq => h q hq) jobW1_H4 [1, 9]

end SparkHarness
